import Mathlib

/-!
Verification of the 3D-Cadastre mesh-repair scripts.

The Python sources are shallowly embedded here:
* `cleaner.py` — string-keyed vertex welding and boundary index rewriting;
* `fix.py` — degenerate-triangle filtering of pre-triangulated boundaries;
* `fix_triangles.py` — tuple-keyed vertex welding, recursive boundary
  remapping/cleaning, and the index/geometry degeneracy test;
* `repair_geometry.py` — Newell normals, projection-axis choice and the
  ear-clipping-based face triangulation (the ear-clipping backend itself is
  an external black-box capability and is a parameter of the embedding).

Python floats are modelled by rationals; Python `round(x, p)` (half-to-even)
is modelled exactly on rationals by `roundDec`.  Fallible operations
(KeyError / IndexError) return `Except` / `Option`.
-/

set_option allowUnsafeReducibility true

attribute [semireducible] Rat.mul Rat.add Rat.sub Rat.neg Rat.div Rat.inv

namespace Cadastre

/-- A vertex: three coordinates, as in the JSON `vertices` array. -/
abbrev Vtx := ℚ × ℚ × ℚ

/-- Floor of a rational, computed directly on the numerator/denominator. -/
def qfloor (q : ℚ) : ℤ := Int.fdiv q.num (q.den : ℤ)

/-- Round a rational to the nearest integer, ties to even — the rounding mode
of Python `round`. -/
def roundHalfEven (q : ℚ) : ℤ :=
  let f := qfloor q
  let r := q - (f : ℚ)
  if r < 1/2 then f
  else if 1/2 < r then f + 1
  else if f % 2 = 0 then f else f + 1

/-- `round(q, p)` of Python on exact rationals: round `q` to `p` decimal
digits, ties to even. -/
def roundDec (p : ℕ) (q : ℚ) : ℚ := (roundHalfEven (q * 10 ^ p) : ℚ) / 10 ^ p

/-! ## Vertex welding

Both `cleaner.py` (string keys, `PRECISION = 5`) and `fix_triangles.py`
(tuple keys, `VERTEX_PRECISION = 6`) run the same loop: walk the vertex list
in order, compute a rounded key, and either reuse the index stored for that
key or append the (unrounded) vertex and record a fresh index.  `weldAux`
embeds that loop, generic in the key function; the loop state is the triple
(`vertex_map`/`unique_vertices_map`, `index_remap`/`index_mapping`,
`new_vertices`). -/

section Weld

variable {V K K2 : Type} [DecidableEq K] [DecidableEq K2]

/-- Lookup in an insertion-ordered association list (the Python dict). -/
def alookup : List (K × ℕ) → K → Option ℕ
  | [], _ => none
  | p :: ps, x => if p.1 = x then some p.2 else alookup ps x

/-- The welding loop of `cleaner.py` / `fix_triangles.py`, one step per input
vertex, carrying the map, the index remap and the deduplicated vertices. -/
def weldAux (k : V → K) : List V → List (K × ℕ) → List ℕ → List V →
    List (K × ℕ) × List ℕ × List V
  | [], m, r, nv => (m, r, nv)
  | v :: l, m, r, nv =>
    match alookup m (k v) with
    | some j => weldAux k l m (r ++ [j]) nv
    | none => weldAux k l (m ++ [(k v, nv.length)]) (r ++ [nv.length]) (nv ++ [v])

/-- Welding: returns (`new_vertices`, `index_remap`). -/
def weld (k : V → K) (vs : List V) : List V × List ℕ :=
  ((weldAux k vs [] [] []).2.2, (weldAux k vs [] [] []).2.1)

theorem weldAux_nil (k : V → K) (m r nv) : weldAux k [] m r nv = (m, r, nv) := rfl

theorem weldAux_cons_some (k : V → K) {v : V} {m j} (l r nv)
    (h : alookup m (k v) = some j) :
    weldAux k (v :: l) m r nv = weldAux k l m (r ++ [j]) nv := by
  simp [weldAux, h]

theorem weldAux_cons_none (k : V → K) {v : V} {m} (l r nv)
    (h : alookup m (k v) = none) :
    weldAux k (v :: l) m r nv =
      weldAux k l (m ++ [(k v, nv.length)]) (r ++ [nv.length]) (nv ++ [v]) := by
  simp [weldAux, h]

theorem alookup_append_some {m m2 : List (K × ℕ)} {x : K} {j : ℕ}
    (h : alookup m x = some j) : alookup (m ++ m2) x = some j := by
  induction m with
  | nil => simp [alookup] at h
  | cons p ps ih =>
    by_cases hp : p.1 = x
    · simpa [alookup, hp] using h
    · simp [alookup, hp] at h ⊢
      exact ih h

theorem alookup_append_none {m : List (K × ℕ)} {x : K} (m2)
    (h : alookup m x = none) : alookup (m ++ m2) x = alookup m2 x := by
  induction m with
  | nil => simp [alookup]
  | cons p ps ih =>
    by_cases hp : p.1 = x
    · simp [alookup, hp] at h
    · simp [alookup, hp] at h ⊢
      exact ih h

theorem weldAux_r_length (k : V → K) (l : List V) :
    ∀ m r nv, ((weldAux k l m r nv).2.1).length = r.length + l.length := by
  induction l with
  | nil => intro m r nv; simp [weldAux]
  | cons v l ih =>
    intro m r nv
    cases h : alookup m (k v) with
    | some j => rw [weldAux_cons_some k l r nv h, ih]; simp; omega
    | none => rw [weldAux_cons_none k l r nv h, ih]; simp; omega

theorem weldAux_nv_length (k : V → K) (l : List V) :
    ∀ m r nv, ((weldAux k l m r nv).2.2).length ≤ nv.length + l.length := by
  induction l with
  | nil => intro m r nv; simp [weldAux]
  | cons v l ih =>
    intro m r nv
    cases h : alookup m (k v) with
    | some j =>
      rw [weldAux_cons_some k l r nv h]
      calc ((weldAux k l m (r ++ [j]) nv).2.2).length ≤ nv.length + l.length := ih _ _ _
        _ ≤ nv.length + (v :: l).length := by simp
    | none =>
      rw [weldAux_cons_none k l r nv h]
      calc ((weldAux k l _ _ (nv ++ [v])).2.2).length ≤ (nv ++ [v]).length + l.length :=
          ih _ _ _
        _ ≤ nv.length + (v :: l).length := by simp; omega

theorem weldAux_r_get (k : V → K) (l : List V) :
    ∀ m r nv i, i < r.length → ((weldAux k l m r nv).2.1).get? i = r.get? i := by
  induction l with
  | nil => intro m r nv i _; simp [weldAux]
  | cons v l ih =>
    intro m r nv i hi
    cases h : alookup m (k v) with
    | some j =>
      rw [weldAux_cons_some k l r nv h, ih _ _ _ _ (by simp; omega)]
      exact List.get?_append hi
    | none =>
      rw [weldAux_cons_none k l r nv h, ih _ _ _ _ (by simp; omega)]
      exact List.get?_append hi

theorem weldAux_nv_get (k : V → K) (l : List V) :
    ∀ m r nv i, i < nv.length → ((weldAux k l m r nv).2.2).get? i = nv.get? i := by
  induction l with
  | nil => intro m r nv i _; simp [weldAux]
  | cons v l ih =>
    intro m r nv i hi
    cases h : alookup m (k v) with
    | some j => rw [weldAux_cons_some k l r nv h, ih _ _ _ _ hi]
    | none =>
      rw [weldAux_cons_none k l r nv h, ih _ _ _ _ (by simp; omega)]
      exact List.get?_append hi

theorem weldAux_lookup_mono (k : V → K) (l : List V) :
    ∀ m r nv (x : K) (j : ℕ), alookup m x = some j →
      alookup (weldAux k l m r nv).1 x = some j := by
  induction l with
  | nil => intro m r nv x j h; simpa [weldAux] using h
  | cons v l ih =>
    intro m r nv x j h
    cases hv : alookup m (k v) with
    | some j0 => rw [weldAux_cons_some k l r nv hv]; exact ih _ _ _ _ _ h
    | none => rw [weldAux_cons_none k l r nv hv]; exact ih _ _ _ _ _ (alookup_append_some h)

/-- Every processed position gets the welded index stored for its key: the
`index_remap` entry written for position `i` agrees with the final map. -/
theorem weldAux_remap_lookup (k : V → K) (l : List V) :
    ∀ m r nv i (v : V), l.get? i = some v →
      ∃ j, ((weldAux k l m r nv).2.1).get? (r.length + i) = some j ∧
        alookup (weldAux k l m r nv).1 (k v) = some j := by
  induction l with
  | nil => intro m r nv i v h; simp at h
  | cons v0 l ih =>
    intro m r nv i v h
    cases i with
    | zero =>
      simp at h
      subst h
      cases hv : alookup m (k v0) with
      | some j =>
        refine ⟨j, ?_, ?_⟩
        · rw [weldAux_cons_some k l r nv hv,
            weldAux_r_get k l _ _ _ (r.length + 0) (by simp)]
          simp [List.get?_append_right]
        · rw [weldAux_cons_some k l r nv hv]
          exact weldAux_lookup_mono k l _ _ _ _ _ hv
      | none =>
        refine ⟨nv.length, ?_, ?_⟩
        · rw [weldAux_cons_none k l r nv hv,
            weldAux_r_get k l _ _ _ (r.length + 0) (by simp)]
          simp [List.get?_append_right]
        · rw [weldAux_cons_none k l r nv hv]
          refine weldAux_lookup_mono k l _ _ _ _ _ ?_
          rw [alookup_append_none _ hv]
          simp [alookup]
    | succ i' =>
      simp only [List.get?_cons_succ] at h
      cases hv : alookup m (k v0) with
      | some j =>
        rw [weldAux_cons_some k l r nv hv,
          show r.length + (i' + 1) = (r ++ [j]).length + i' by simp; omega]
        exact ih _ _ _ _ _ h
      | none =>
        rw [weldAux_cons_none k l r nv hv,
          show r.length + (i' + 1) = (r ++ [nv.length]).length + i' by simp; omega]
        exact ih _ _ _ _ _ h

/-- First occurrence of a key: the remap entry points at the vertex itself,
stored verbatim in `new_vertices`. -/
theorem weldAux_first_occ (k : V → K) (l : List V) :
    ∀ m r nv i (v : V), l.get? i = some v →
      (∀ j w, j < i → l.get? j = some w → k w ≠ k v) →
      alookup m (k v) = none →
      ∃ n, ((weldAux k l m r nv).2.1).get? (r.length + i) = some n ∧
        ((weldAux k l m r nv).2.2).get? n = some v := by
  induction l with
  | nil => intro m r nv i v h _ _; simp at h
  | cons v0 l ih =>
    intro m r nv i v h hfirst hm
    cases i with
    | zero =>
      simp at h
      subst h
      rw [weldAux_cons_none k l r nv hm]
      refine ⟨nv.length, ?_, ?_⟩
      · rw [weldAux_r_get k l _ _ _ (r.length + 0) (by simp)]
        simp [List.get?_append_right]
      · rw [weldAux_nv_get k l _ _ _ nv.length (by simp)]
        simp [List.get?_append_right]
    | succ i' =>
      simp only [List.get?_cons_succ] at h
      have hne : k v0 ≠ k v := by
        have := hfirst 0 v0 (Nat.succ_pos i') (by simp)
        exact this
      have hfirst' : ∀ j w, j < i' → l.get? j = some w → k w ≠ k v := by
        intro j w hj hw
        exact hfirst (j + 1) w (by omega) (by simpa using hw)
      cases hv : alookup m (k v0) with
      | some j =>
        rw [weldAux_cons_some k l r nv hv,
          show r.length + (i' + 1) = (r ++ [j]).length + i' by simp; omega]
        exact ih _ _ _ _ _ h hfirst' hm
      | none =>
        rw [weldAux_cons_none k l r nv hv,
          show r.length + (i' + 1) = (r ++ [nv.length]).length + i' by simp; omega]
        refine ih _ _ _ _ _ h hfirst' ?_
        rw [alookup_append_none _ hm]
        simp [alookup, hne]

/-- On an input whose keys are pairwise distinct and all unseen, the loop is
the identity: it appends every vertex and numbers them consecutively. -/
theorem weldAux_distinct (k : V → K) (l : List V) :
    ∀ m r nv, (∀ v ∈ l, alookup m (k v) = none) →
      l.Pairwise (fun a b => k a ≠ k b) →
      (weldAux k l m r nv).2.1 = r ++ List.range' nv.length l.length ∧
      (weldAux k l m r nv).2.2 = nv ++ l := by
  induction l with
  | nil => intro m r nv _ _; simp [weldAux]
  | cons v l ih =>
    intro m r nv hnone hpw
    have hv : alookup m (k v) = none := hnone v (by simp)
    rw [weldAux_cons_none k l r nv hv]
    have hpw' := (List.pairwise_cons.mp hpw)
    have h1 : ∀ w ∈ l, alookup (m ++ [(k v, nv.length)]) (k w) = none := by
      intro w hw
      rw [alookup_append_none _ (hnone w (by simp [hw]))]
      simp [alookup]
      intro hkv
      exact absurd hkv (hpw'.1 w hw)
    obtain ⟨e1, e2⟩ := ih (m ++ [(k v, nv.length)]) (r ++ [nv.length]) (nv ++ [v]) h1 hpw'.2
    constructor
    · rw [e1]
      simp [List.range'_succ, List.append_assoc]
    · rw [e2]
      simp

/-- The vertices appended by the loop have pairwise distinct keys, as long as
every already-stored vertex has its key in the map. -/
theorem weldAux_nv_pairwise (k : V → K) (l : List V) :
    ∀ m r nv, (∀ w ∈ nv, (alookup m (k w)).isSome) →
      nv.Pairwise (fun a b => k a ≠ k b) →
      ((weldAux k l m r nv).2.2).Pairwise (fun a b => k a ≠ k b) := by
  induction l with
  | nil => intro m r nv _ hpw; simpa [weldAux] using hpw
  | cons v l ih =>
    intro m r nv hcov hpw
    cases hv : alookup m (k v) with
    | some j =>
      rw [weldAux_cons_some k l r nv hv]
      exact ih _ _ _ hcov hpw
    | none =>
      rw [weldAux_cons_none k l r nv hv]
      refine ih _ _ _ ?_ ?_
      · intro w hw
        rcases List.mem_append.mp hw with hw | hw
        · rcases Option.isSome_iff_exists.mp (hcov w hw) with ⟨j, hj⟩
          rw [alookup_append_some hj]
          rfl
        · simp at hw
          subst hw
          rw [alookup_append_none _ hv]
          simp [alookup]
      · rw [List.pairwise_append]
        refine ⟨hpw, by simp, ?_⟩
        intro a ha b hb
        simp at hb
        subst hb
        intro hk
        have := hcov a ha
        rw [hk, hv] at this
        simp at this

/-- Replacing the key function `k` by `g ∘ k` does not change the loop result
when `g` is injective on all keys that can come up. -/
theorem weldAux_key_map (k : V → K) (g : K → K2) (l : List V) :
    ∀ m r nv,
      (∀ a b : K, (a ∈ m.map Prod.fst ∨ ∃ v ∈ l, a = k v) →
        (b ∈ m.map Prod.fst ∨ ∃ v ∈ l, b = k v) → g a = g b → a = b) →
      (weldAux (fun v => g (k v)) l (m.map (fun p => (g p.1, p.2))) r nv).2 =
        (weldAux k l m r nv).2 := by
  have halookup : ∀ (m : List (K × ℕ)) (x : K),
      (∀ a, a ∈ m.map Prod.fst → g a = g x → a = x) →
      alookup (m.map (fun p => (g p.1, p.2))) (g x) = alookup m x := by
    intro m x hinj
    induction m with
    | nil => simp [alookup]
    | cons p ps ih =>
      by_cases hp : p.1 = x
      · simp [alookup, hp]
      · have hgp : ¬ g p.1 = g x := by
          intro hg
          exact hp (hinj p.1 (by simp) hg)
        simp [alookup, hp, hgp]
        exact ih (fun a ha => hinj a (by simp [ha]))
  induction l with
  | nil => intro m r nv _; simp [weldAux]
  | cons v l ih =>
    intro m r nv hinj
    have hlook : alookup (m.map (fun p => (g p.1, p.2))) (g (k v)) = alookup m (k v) := by
      refine halookup m (k v) ?_
      intro a ha
      exact hinj a (k v) (Or.inl ha) (Or.inr ⟨v, List.mem_cons_self v l, rfl⟩)
    cases hv : alookup m (k v) with
    | some j =>
      rw [weldAux_cons_some k l r nv hv,
        weldAux_cons_some (fun v => g (k v)) l r nv (by rw [hlook]; exact hv)]
      refine ih m (r ++ [j]) nv ?_
      intro a b ha hb
      have expand : ∀ c : K, (c ∈ m.map Prod.fst ∨ ∃ w ∈ l, c = k w) →
          (c ∈ m.map Prod.fst ∨ ∃ w ∈ v :: l, c = k w) := by
        intro c hc
        rcases hc with hc | ⟨w, hw, hcw⟩
        · exact Or.inl hc
        · exact Or.inr ⟨w, List.mem_cons_of_mem v hw, hcw⟩
      exact hinj a b (expand a ha) (expand b hb)
    | none =>
      rw [weldAux_cons_none k l r nv hv,
        weldAux_cons_none (fun v => g (k v)) l r nv (by rw [hlook]; exact hv)]
      have hmap : (m.map (fun p => (g p.1, p.2))) ++ [(g (k v), nv.length)] =
          (m ++ [(k v, nv.length)]).map (fun p => (g p.1, p.2)) := by
        simp
      rw [hmap]
      refine ih (m ++ [(k v, nv.length)]) (r ++ [nv.length]) (nv ++ [v]) ?_
      intro a b ha hb
      have expand : ∀ c : K,
          (c ∈ (m ++ [(k v, nv.length)]).map Prod.fst ∨ ∃ w ∈ l, c = k w) →
          (c ∈ m.map Prod.fst ∨ ∃ w ∈ v :: l, c = k w) := by
        intro c hc
        rcases hc with hc | ⟨w, hw, hcw⟩
        · rw [List.map_append] at hc
          rcases List.mem_append.mp hc with hc | hc
          · exact Or.inl hc
          · simp at hc
            exact Or.inr ⟨v, List.mem_cons_self v l, hc⟩
        · exact Or.inr ⟨w, List.mem_cons_of_mem v hw, hcw⟩
      exact hinj a b (expand a ha) (expand b hb)

end Weld

/-- The rounded-coordinate tuple key of `fix_triangles.py`
(`rounded = tuple(round(coord, VERTEX_PRECISION) for coord in vertex)`). -/
def keyQ (p : ℕ) (v : Vtx) : ℚ × ℚ × ℚ :=
  (roundDec p v.1, roundDec p v.2.1, roundDec p v.2.2)

/-- The example vertex list of the spec (§8): the last vertex differs from
the first by `0.000001` in `z`. -/
def wvs : List Vtx :=
  [(0, 0, 0), (1, 0, 0), (1, 1, 0), (0, 1, 0), (0, 0, 1/1000000)]

/-- C4: for every input vertex sequence and precision, welding (the
`fix_triangles.py` / `cleaner.py` loop) returns a welded vertex array no
longer than the input; a vertex that is the first occurrence of its rounded
key is stored verbatim at the welded index recorded for it; and any two
original indices with the same rounded key receive the same welded index. -/
theorem C4_weld_spec (p : ℕ) (vs : List Vtx) :
    ((weld (keyQ p) vs).1).length ≤ vs.length ∧
    (∀ i v, vs.get? i = some v →
      (∀ j w, j < i → vs.get? j = some w → keyQ p w ≠ keyQ p v) →
      ∃ n, ((weld (keyQ p) vs).2).get? i = some n ∧
        ((weld (keyQ p) vs).1).get? n = some v) ∧
    (∀ i j vi vj, vs.get? i = some vi → vs.get? j = some vj →
      keyQ p vi = keyQ p vj →
      ((weld (keyQ p) vs).2).get? i = ((weld (keyQ p) vs).2).get? j) := by
  refine ⟨?_, ?_, ?_⟩
  · simpa using weldAux_nv_length (keyQ p) vs [] [] []
  · intro i v hv hfirst
    have h := weldAux_first_occ (keyQ p) vs [] [] [] i v hv hfirst rfl
    simpa [weld] using h
  · intro i j vi vj hi hj hk
    obtain ⟨n1, h1, h1m⟩ := weldAux_remap_lookup (keyQ p) vs [] [] [] i vi hi
    obtain ⟨n2, h2, h2m⟩ := weldAux_remap_lookup (keyQ p) vs [] [] [] j vj hj
    have e1 : ((weld (keyQ p) vs).2).get? i = some n1 := by simpa [weld] using h1
    have e2 : ((weld (keyQ p) vs).2).get? j = some n2 := by simpa [weld] using h2
    have hn : n1 = n2 := by
      rw [hk] at h1m
      exact Option.some.inj (h1m.symm.trans h2m)
    rw [e1, e2, hn]

/-- Witness for C4 at the spec's example list: index 1 holds the first (and
only) vertex with its key, so it is stored verbatim. -/
theorem C4_weld_spec_witness :
    ∃ n, ((weld (keyQ 5) wvs).2).get? 1 = some n ∧
      ((weld (keyQ 5) wvs).1).get? n = some ((1 : ℚ), (0 : ℚ), (0 : ℚ)) := by
  refine (C4_weld_spec 5 wvs).2.1 1 ((1 : ℚ), (0 : ℚ), (0 : ℚ)) (by decide) ?_
  intro j w hj hw
  interval_cases j
  have hw0 : w = ((0 : ℚ), (0 : ℚ), (0 : ℚ)) := by
    simpa [wvs] using hw.symm
  subst hw0
  decide

/-- C5: welding is idempotent — welding an already-welded vertex array at the
same precision returns the identical array together with the identity index
map `[0, 1, ..., n-1]`. -/
theorem C5_weld_idempotent (p : ℕ) (vs : List Vtx) :
    weld (keyQ p) ((weld (keyQ p) vs).1) =
      ((weld (keyQ p) vs).1, List.range ((weld (keyQ p) vs).1).length) := by
  have hpw : ((weld (keyQ p) vs).1).Pairwise (fun a b => keyQ p a ≠ keyQ p b) := by
    have h := weldAux_nv_pairwise (keyQ p) vs [] [] [] (by simp) (by simp)
    simpa [weld] using h
  obtain ⟨e1, e2⟩ := weldAux_distinct (keyQ p) ((weld (keyQ p) vs).1) [] [] []
    (fun v _ => rfl) hpw
  have hw : weld (keyQ p) ((weld (keyQ p) vs).1) =
      ((weldAux (keyQ p) ((weld (keyQ p) vs).1) [] [] []).2.2,
        (weldAux (keyQ p) ((weld (keyQ p) vs).1) [] [] []).2.1) := rfl
  rw [hw, e1, e2]
  simp [List.range_eq_range']

/-- C8: at precision 5 the example list welds its fifth vertex
`(0, 0, 0.000001)` into the first one (index 0), leaving 4 welded vertices. -/
theorem C8_weld_example :
    ((weld (keyQ 5) wvs).2).get? 4 = some 0 ∧
      ((weld (keyQ 5) wvs).1).length = 4 := by
  decide

/-! ## Vector helpers of `fix.py` (also inlined in `fix_triangles.py`) -/

/-- `sub(p2, p1)`: componentwise difference `p2 - p1`. -/
def sub (p2 p1 : Vtx) : Vtx := (p2.1 - p1.1, p2.2.1 - p1.2.1, p2.2.2 - p1.2.2)

/-- `cross_product(a, b)`. -/
def cross_product (a b : Vtx) : Vtx :=
  (a.2.1 * b.2.2 - a.2.2 * b.2.1,
   a.2.2 * b.1 - a.1 * b.2.2,
   a.1 * b.2.1 - a.2.1 * b.1)

/-- `length_squared(v)`. -/
def length_squared (v : Vtx) : ℚ := v.1 ^ 2 + v.2.1 ^ 2 + v.2.2 ^ 2

/-- Python list subscription `l[i]`: non-negative indices from the front,
negative indices from the back, `none` = `IndexError`. -/
def pyGet {α : Type} (l : List α) (i : ℤ) : Option α :=
  if 0 ≤ i then l.get? i.toNat
  else if 0 ≤ (l.length : ℤ) + i then l.get? ((l.length : ℤ) + i).toNat
  else none

/-! ## `is_degenerate_triangle` of `fix_triangles.py`

Order of checks as in the source: repeated indices first, then
`idx >= len(vertices)`, then the squared cross-product area against `1e-16`.
A vertex access that raises `IndexError` is `none`. -/

def is_degenerate_triangle (idx0 idx1 idx2 : ℤ) (vertices : List Vtx) : Option Bool :=
  if idx0 = idx1 ∨ idx1 = idx2 ∨ idx0 = idx2 then some true
  else if (vertices.length : ℤ) ≤ idx0 ∨ (vertices.length : ℤ) ≤ idx1 ∨
      (vertices.length : ℤ) ≤ idx2 then some true
  else
    match pyGet vertices idx0, pyGet vertices idx1, pyGet vertices idx2 with
    | some p0, some p1, some p2 =>
      some (decide (length_squared (cross_product (sub p1 p0) (sub p2 p0)) < 1/10^16))
    | _, _, _ => none

/-- A small non-degenerate triangle used in several concrete checks. -/
def triV : List Vtx := [(0, 0, 0), (1, 0, 0), (0, 1, 0)]

/-- C7 counterexample: the negative index `-1` is accepted by the bounds
check `idx >= len(vertices)`, Python then reads the LAST vertex, and the
verdict is computed from the wrong triangle: the checker answers `false`
although the claim demands `true` for any out-of-bounds (negative) index. -/
theorem C7_counterexample :
    is_degenerate_triangle (-1) 0 1 triV = some false := by
  decide

/-- C7 amended: `is_degenerate_triangle` returns `true` whenever two of the
indices are equal or one of them is `≥ len(vertices)`; negative indices are
not detected (they read from the end of the array instead, cf. the
counterexample). -/
theorem C7_amended (idx0 idx1 idx2 : ℤ) (vertices : List Vtx)
    (h : idx0 = idx1 ∨ idx1 = idx2 ∨ idx0 = idx2 ∨
      (vertices.length : ℤ) ≤ idx0 ∨ (vertices.length : ℤ) ≤ idx1 ∨
      (vertices.length : ℤ) ≤ idx2) :
    is_degenerate_triangle idx0 idx1 idx2 vertices = some true := by
  unfold is_degenerate_triangle
  split_ifs with h1 h2
  · rfl
  · rfl
  · tauto

/-- Witness for C7 amended: a repeated index is reported degenerate. -/
theorem C7_amended_witness :
    is_degenerate_triangle 0 0 1 triV = some true :=
  C7_amended 0 0 1 triV (Or.inl rfl)

/-! ## Projection axes of `repair_geometry.py`

`ax1, ax2 = (0, 1) if abs(normal[2]) > abs(normal[0]) and abs(normal[2]) >
abs(normal[1]) else ((1, 2) if abs(normal[0]) > abs(normal[1]) else (0, 2))` -/

def chooseProjectionAxes (n : Vtx) : ℕ × ℕ :=
  if |n.2.2| > |n.1| ∧ |n.2.2| > |n.2.1| then (0, 1)
  else if |n.1| > |n.2.1| then (1, 2) else (0, 2)

/-- Coordinate selection `p[ax]` for an axis index 0/1/2. -/
def coordAt (p : Vtx) (ax : ℕ) : ℚ :=
  if ax = 0 then p.1 else if ax = 1 then p.2.1 else p.2.2

/-- The axis that is dropped by a retained-axes pair. -/
def droppedAxis (axes : ℕ × ℕ) : ℕ :=
  if axes = (0, 1) then 2 else if axes = (1, 2) then 0 else 1

/-- C6 counterexample: for the normal `(1, 0, 1)` the absolute `z` component
is maximal (tied with `x`), so the claim demands the retained pair `(0, 1)`
(drop Z first on ties); the code returns `(1, 2)`. -/
theorem C6_counterexample :
    chooseProjectionAxes (1, 0, 1) = (1, 2) ∧ ((1, 2) : ℕ × ℕ) ≠ (0, 1) := by
  constructor
  · decide
  · decide

/-- C6 amended: the code retains `(0, 1)` only when `|nz|` is STRICTLY
greater than both `|nx|` and `|ny|`; otherwise it retains `(1, 2)` exactly
when `|nx| > |ny|`, and `(0, 2)` otherwise.  The dropped axis always attains
the maximum absolute component, but ties on the maximum are broken toward
dropping X (when `|nx| > |ny|`) or Y (otherwise), never Z. -/
theorem C6_amended (n : Vtx) :
    (chooseProjectionAxes n = (0, 1) ↔ (|n.2.2| > |n.1| ∧ |n.2.2| > |n.2.1|)) ∧
    (chooseProjectionAxes n = (1, 2) ↔
      (¬(|n.2.2| > |n.1| ∧ |n.2.2| > |n.2.1|) ∧ |n.1| > |n.2.1|)) ∧
    (chooseProjectionAxes n = (0, 2) ↔
      (¬(|n.2.2| > |n.1| ∧ |n.2.2| > |n.2.1|) ∧ ¬(|n.1| > |n.2.1|))) ∧
    |coordAt n (droppedAxis (chooseProjectionAxes n))| =
      max (max |n.1| |n.2.1|) |n.2.2| := by
  unfold chooseProjectionAxes
  split_ifs with h1 h2
  · refine ⟨by simp [h1], by simp [h1], by simp [h1], ?_⟩
    show |n.2.2| = max (max |n.1| |n.2.1|) |n.2.2|
    rw [max_eq_right (max_le h1.1.le h1.2.le)]
  · refine ⟨by simp [h1], by simp [h1, h2], by simp [h2], ?_⟩
    show |n.1| = max (max |n.1| |n.2.1|) |n.2.2|
    push_neg at h1
    have hz : |n.2.2| ≤ |n.1| := by
      rcases le_or_lt |n.2.2| |n.1| with hza | hza
      · exact hza
      · exact le_trans (h1 hza) h2.le
    rw [max_eq_left h2.le, max_eq_left hz]
  · refine ⟨by simp [h1], by simp [h2], by simp [h1, h2], ?_⟩
    show |n.2.1| = max (max |n.1| |n.2.1|) |n.2.2|
    push_neg at h1 h2
    have hz : |n.2.2| ≤ |n.2.1| := by
      rcases le_or_lt |n.2.2| |n.1| with hza | hza
      · exact le_trans hza h2
      · exact h1 hza
    rw [max_eq_right h2, max_eq_left hz]

/-! ## `process_boundary` of `fix_triangles.py`

Nested boundary structures are a tagged tree: a `ring` is a list whose first
element is a number, a `node` is a list of sub-structures.  Remapping a leaf
looks every index up in the `index_remap` dict — a missing key raises
`KeyError`, which the embedding threads as `Except.error`. -/

inductive Bnd where
  | ring : List ℕ → Bnd
  | node : List Bnd → Bnd

/-- `cleaned`: drop an index equal to the previous kept one
(`if not cleaned or idx != cleaned[-1]: cleaned.append(idx)`). -/
def collapseConsec (l : List ℕ) : List ℕ :=
  l.foldl (fun acc idx => if acc.getLast? = some idx then acc else acc ++ [idx]) []

/-- `if len(cleaned) > 1 and cleaned[0] == cleaned[-1]: cleaned = cleaned[:-1]`. -/
def trimClosing (l : List ℕ) : List ℕ :=
  if 1 < l.length ∧ l.head? = l.getLast? then l.dropLast else l

/-- `list(dict.fromkeys(cleaned))`: first-occurrence deduplication. -/
def pyDedupAux (seen : List ℕ) : List ℕ → List ℕ
  | [] => []
  | x :: xs => if x ∈ seen then pyDedupAux seen xs else x :: pyDedupAux (x :: seen) xs

def pyDedup (l : List ℕ) : List ℕ := pyDedupAux [] l

/-- `[index_remap[int(idx)] for idx in boundary]`, left to right;
a missing key is a `KeyError`. -/
def mapRemap (remap : ℕ → Option ℕ) : List ℕ → Except String (List ℕ)
  | [] => Except.ok []
  | i :: is =>
    match remap i with
    | some j => (mapRemap remap is).map (fun js => j :: js)
    | none => Except.error "KeyError"

section ProcessBoundary

variable (remap : ℕ → Option ℕ) (vertices : List Vtx)

mutual

/-- `process_boundary(boundary, vertices)`: `Except.ok none` models the
Python `return None` (boundary removed), `Except.error` an uncaught
exception escaping the recursion. -/
def process_boundary : Bnd → Except String (Option Bnd)
  | Bnd.ring ixs =>
    if ixs.isEmpty then Except.ok none
    else
      match mapRemap remap ixs with
      | Except.error e => Except.error e
      | Except.ok remapped =>
        match pyDedup (trimClosing (collapseConsec remapped)) with
        | [a, b, c] =>
          match is_degenerate_triangle (a : ℤ) (b : ℤ) (c : ℤ) vertices with
          | some true => Except.ok none
          | some false => Except.ok (some (Bnd.ring remapped))
          | none => Except.error "IndexError"
        | u =>
          if u.length < 3 then Except.ok none
          else Except.ok (some (Bnd.ring remapped))
  | Bnd.node cs =>
    if cs.isEmpty then Except.ok none
    else
      match processChildren cs with
      | Except.error e => Except.error e
      | Except.ok processed =>
        if processed.isEmpty then Except.ok none
        else Except.ok (some (Bnd.node processed))

/-- The loop over children: results that are `None` are skipped, the rest
are appended in order; exceptions propagate. -/
def processChildren : List Bnd → Except String (List Bnd)
  | [] => Except.ok []
  | c :: cs =>
    match process_boundary c with
    | Except.error e => Except.error e
    | Except.ok r =>
      match processChildren cs with
      | Except.error e => Except.error e
      | Except.ok rest =>
        Except.ok (match r with | some b => b :: rest | none => rest)

end

end ProcessBoundary

/-- The identity remap on three welded vertices. -/
def remap3 : ℕ → Option ℕ := fun i => if i < 3 then some i else none

/-- C1 counterexample: the surviving ring `[0, 1, 2, 0]` is returned still
carrying its closing duplicate — `process_boundary` returns `remapped`, not
the cleaned sequence `[0, 1, 2]`. -/
theorem C1_counterexample :
    process_boundary remap3 triV (Bnd.ring [0, 1, 2, 0]) =
      Except.ok (some (Bnd.ring [0, 1, 2, 0])) ∧
    Bnd.ring [0, 1, 2, 0] ≠ Bnd.ring [0, 1, 2] := by
  constructor
  · rfl
  · simp

/-- Exhaustive description of the leaf case of `process_boundary`: it either
raises, removes the ring, or returns the REMAPPED sequence unchanged. -/
theorem process_boundary_ring_result (remap : ℕ → Option ℕ) (vertices : List Vtx)
    (ixs : List ℕ) :
    (∃ e, process_boundary remap vertices (Bnd.ring ixs) = Except.error e) ∨
    process_boundary remap vertices (Bnd.ring ixs) = Except.ok none ∨
    (∃ rm, mapRemap remap ixs = Except.ok rm ∧
      process_boundary remap vertices (Bnd.ring ixs) = Except.ok (some (Bnd.ring rm))) := by
  unfold process_boundary
  split
  · exact Or.inr (Or.inl rfl)
  · split
    next e he => exact Or.inl ⟨e, rfl⟩
    next rm hm =>
      split
      · split
        · exact Or.inr (Or.inl rfl)
        · exact Or.inr (Or.inr ⟨rm, hm, rfl⟩)
        · exact Or.inl ⟨"IndexError", rfl⟩
      · split
        · exact Or.inr (Or.inl rfl)
        · exact Or.inr (Or.inr ⟨rm, hm, rfl⟩)

/-- C1 amended: a leaf ring that survives `process_boundary` is returned as
the remapped sequence (consecutive and closing duplicates still present);
the cleaned sequence — duplicates collapsed and the closing duplicate
trimmed, with `[0,1,2,0]` and `[0,1,1,2]` both cleaning to `[0,1,2]` — is
computed only to decide whether the ring survives. -/
theorem C1_amended :
    (∀ (remap : ℕ → Option ℕ) (vertices : List Vtx) (ixs : List ℕ) (out : Bnd),
      process_boundary remap vertices (Bnd.ring ixs) = Except.ok (some out) →
      ∃ rm, mapRemap remap ixs = Except.ok rm ∧ out = Bnd.ring rm) ∧
    trimClosing (collapseConsec [0, 1, 2, 0]) = [0, 1, 2] ∧
    trimClosing (collapseConsec [0, 1, 1, 2]) = [0, 1, 2] := by
  refine ⟨?_, by decide, by decide⟩
  intro remap vertices ixs out h
  rcases process_boundary_ring_result remap vertices ixs with ⟨e, he⟩ | hn | ⟨rm, hm, hr⟩
  · rw [he] at h
    cases h
  · rw [hn] at h
    cases h
  · rw [hr] at h
    refine ⟨rm, hm, ?_⟩
    injection h with h1
    injection h1 with h2
    exact h2.symm

/-- Witness for C1 amended, at the ring `[0,1,2,0]` over `triV`. -/
theorem C1_amended_witness :
    ∃ rm, mapRemap remap3 [0, 1, 2, 0] = Except.ok rm ∧
      Bnd.ring [0, 1, 2, 0] = Bnd.ring rm :=
  C1_amended.1 remap3 triV [0, 1, 2, 0] (Bnd.ring [0, 1, 2, 0]) rfl

/-- A ring containing an index outside the remap dict makes the whole
comprehension raise `KeyError`. -/
theorem mapRemap_error (remap : ℕ → Option ℕ) :
    ∀ (ixs : List ℕ) i, i ∈ ixs → remap i = none →
      mapRemap remap ixs = Except.error "KeyError" := by
  intro ixs
  induction ixs with
  | nil => intro i hi _; simp at hi
  | cons x xs ih =>
    intro i hi hnone
    unfold mapRemap
    rcases List.mem_cons.mp hi with rfl | hi2
    · rw [hnone]
    · cases hx : remap x with
      | none => rfl
      | some j => rw [ih i hi2 hnone]; rfl

/-- C3 counterexample: the first ring of the node holds the out-of-range
index 7; instead of dropping that ring and processing the second one,
`process_boundary` propagates the `KeyError` — the whole pass aborts. -/
theorem C3_counterexample :
    process_boundary remap3 triV
        (Bnd.node [Bnd.ring [7, 0, 1], Bnd.ring [0, 1, 2]]) =
      Except.error "KeyError" := by
  rfl

/-- C3 amended: a leaf index missing from `index_remap` makes
`process_boundary` raise `KeyError` (abort), not drop the containing ring. -/
theorem C3_amended (remap : ℕ → Option ℕ) (vertices : List Vtx) (ixs : List ℕ)
    (h : ∃ i ∈ ixs, remap i = none) :
    process_boundary remap vertices (Bnd.ring ixs) = Except.error "KeyError" := by
  obtain ⟨i, hi, hnone⟩ := h
  have hne : ¬ ixs.isEmpty := by
    cases ixs with
    | nil => simp at hi
    | cons a as => simp
  unfold process_boundary
  rw [if_neg hne, mapRemap_error remap ixs i hi hnone]

/-- Witness for C3 amended at the singleton ring `[5]` over `remap3`. -/
theorem C3_amended_witness :
    process_boundary remap3 triV (Bnd.ring [5]) = Except.error "KeyError" :=
  C3_amended remap3 triV [5] ⟨5, by decide, rfl⟩

/-! ## `triangulate_face` of `repair_geometry.py`

The ear-clipping backend (`from earcut import earcut`) is an external
black-box capability: it is a parameter `ec` receiving the flat 2D point
buffer, the hole start offsets and the dimensionality, and returning local
point indices.  All fallible list subscripts are threaded through `Option`
(`none` = `IndexError`). -/

/-- `get_normal(points)`: Newell accumulation over consecutive pairs with
wrap-around. -/
def get_normal (points : List Vtx) : Vtx :=
  (List.range points.length).foldl
    (fun acc i =>
      match points.get? i, points.get? ((i + 1) % points.length) with
      | some p1, some p2 =>
        (acc.1 + (p1.2.1 - p2.2.1) * (p1.2.2 + p2.2.2),
         acc.2.1 + (p1.2.2 - p2.2.2) * (p1.1 + p2.1),
         acc.2.2 + (p1.1 - p2.1) * (p1.2.1 + p2.2.1))
      | _, _ => acc)
    (0, 0, 0)

/-- `[new_vertices[i] for i in ring]`. -/
def getPoints (nv : List Vtx) : List ℕ → Option (List Vtx)
  | [] => some []
  | i :: is =>
    match nv.get? i with
    | some p => (getPoints nv is).map (fun ps => p :: ps)
    | none => none

/-- Interleave the two projected coordinates of every point
(`vertices_2d.extend([p[ax1], p[ax2]])`). -/
def projectPts (axes : ℕ × ℕ) (pts : List Vtx) : List ℚ :=
  pts.foldl (fun acc p => acc ++ [coordAt p axes.1, coordAt p axes.2]) []

/-- The hole loop: record `len(vertices_2d) // 2` before appending each
hole ring's projected points. -/
def holesLoop (nv : List Vtx) (axes : ℕ × ℕ) :
    List (List ℕ) → List ℚ → List ℕ → Option (List ℚ × List ℕ)
  | [], buf, his => some (buf, his)
  | h :: hs, buf, his =>
    match getPoints nv h with
    | some hpts => holesLoop nv axes hs (buf ++ projectPts axes hpts) (his ++ [buf.length / 2])
    | none => none

/-- `for i in range(0, len(result), 3)` with accesses `result[i+1]`,
`result[i+2]`: a trailing partial chunk raises `IndexError`. -/
def chunk3 {α : Type} : List α → Option (List (α × α × α))
  | [] => some []
  | a :: b :: c :: rest => (chunk3 rest).map (fun ts => (a, b, c) :: ts)
  | _ => none

/-- `all_indices[result[i]]` for each corner of each triangle. -/
def mapTriples (allIx : List ℕ) : List (ℕ × ℕ × ℕ) → Option (List (List ℕ))
  | [] => some []
  | (a, b, c) :: ts =>
    match allIx.get? a, allIx.get? b, allIx.get? c with
    | some x, some y, some z => (mapTriples allIx ts).map (fun rs => [x, y, z] :: rs)
    | _, _, _ => none

/-- `triangulate_face(face_rings_indices)` with the exterior ring and hole
rings destructured (`face_rings_indices[0]` / `[1:]`). -/
def triangulate_face (ec : List ℚ → List ℕ → ℕ → List ℕ) (new_vertices : List Vtx)
    (ext : List ℕ) (holes : List (List ℕ)) : Option (List (List ℕ)) :=
  if (pyDedup ext).length < 3 then some []
  else
    match getPoints new_vertices ext with
    | none => none
    | some epts =>
      let axes := chooseProjectionAxes (get_normal epts)
      match holesLoop new_vertices axes holes (projectPts axes epts) [] with
      | none => none
      | some (buf, holeIx) =>
        let result := ec buf holeIx 2
        let allIx := ext ++ holes.join
        match chunk3 result with
        | none => none
        | some ts => mapTriples allIx ts

/-- Three collinear vertices: every triangle over them is degenerate. -/
def colV : List Vtx := [(0, 0, 0), (1, 0, 0), (2, 0, 0)]

/-- C2 counterexample: over the collinear exterior ring `[0,1,2]` a
capability returning the triple `(0,1,2)` has its triangle emitted verbatim
by `triangulate_face`, although that triangle is degenerate — no
`DegeneracyChecker` runs on produced triangles. -/
theorem C2_counterexample :
    triangulate_face (fun _ _ _ => [0, 1, 2]) colV [0, 1, 2] [] = some [[0, 1, 2]] ∧
    is_degenerate_triangle 0 1 2 colV = some true := by
  constructor
  · rfl
  · decide

/-- C2 amended: triangles produced by the ear-clipping capability are mapped
back to vertex indices and emitted with NO degeneracy filtering: over the
collinear vertex set `colV`, every in-range triple the capability returns is
emitted even though it is always a degenerate triangle.  The only check is
the upfront rejection of exterior rings with fewer than 3 distinct
indices. -/
theorem C2_amended :
    ∀ t : Fin 3 × Fin 3 × Fin 3,
      triangulate_face (fun _ _ _ => [t.1.val, t.2.1.val, t.2.2.val]) colV [0, 1, 2] [] =
        some [[t.1.val, t.2.1.val, t.2.2.val]] ∧
      is_degenerate_triangle (t.1.val : ℤ) (t.2.1.val : ℤ) (t.2.2.val : ℤ) colV =
        some true := by
  decide

/-! ## The filter loop of `fix.py`

A face is kept unexamined unless it matches the pre-triangulated pattern
`[[[v1, v2, v3]]]`; a pattern face is dropped when an index is out of bounds
(`idx >= len(vertices) or idx < 0`) or the squared cross-product area is
below `1e-12`. -/

/-- The nested-list shape of a face in `fix.py` (leaves are raw ints). -/
abbrev PFace := List (List (List ℤ))

/-- The keep-decision for a pattern face `[[[a, b, c]]]`. -/
def keep_triangle (vertices : List Vtx) (a b c : ℤ) : Bool :=
  if (vertices.length : ℤ) ≤ a ∨ a < 0 ∨ (vertices.length : ℤ) ≤ b ∨ b < 0 ∨
      (vertices.length : ℤ) ≤ c ∨ c < 0 then false
  else
    match vertices.get? a.toNat, vertices.get? b.toNat, vertices.get? c.toNat with
    | some p1, some p2, some p3 =>
      decide (¬ length_squared (cross_product (sub p2 p1) (sub p3 p1)) < 1/10^12)
    | _, _, _ => false

/-- The per-geometry boundary filter of `fix.py`. -/
def fixFilter (vertices : List Vtx) (faces : List PFace) : List PFace :=
  faces.filter (fun face =>
    match face with
    | [[[a, b, c]]] => keep_triangle vertices a b c
    | _ => true)

/-- C10 counterexample: over a single vertex the non-pattern face
`[[[0, 5, 7, 9]]]` (four indices, so not the triangle pattern) passes
through `fix.py` unexamined, leaving leaf indices `5, 7, 9` that are out of
bounds for the output vertex array of length 1. -/
theorem C10_counterexample :
    fixFilter [((0 : ℚ), (0 : ℚ), (0 : ℚ))] [[[[0, 5, 7, 9]]]] = [[[[0, 5, 7, 9]]]] ∧
      ¬((5 : ℤ) < (([((0 : ℚ), (0 : ℚ), (0 : ℚ))] : List Vtx).length : ℤ)) := by
  constructor
  · rfl
  · decide

/-- C10 amended: only faces matching the pre-triangulated pattern
`[[[a, b, c]]]` are validated by `fix.py`; such a face that is retained has
all three indices in bounds and squared cross-product area at least
`1e-12`.  Faces of any other shape are passed through unchecked (cf. the
counterexample), and the triangulating variant emits capability output
unchecked as well. -/
theorem C10_amended (vertices : List Vtx) (faces : List PFace) (a b c : ℤ)
    (h : [[[a, b, c]]] ∈ fixFilter vertices faces) :
    (0 ≤ a ∧ a < (vertices.length : ℤ) ∧ 0 ≤ b ∧ b < (vertices.length : ℤ) ∧
      0 ≤ c ∧ c < (vertices.length : ℤ)) ∧
    ∃ p1 p2 p3, vertices.get? a.toNat = some p1 ∧ vertices.get? b.toNat = some p2 ∧
      vertices.get? c.toNat = some p3 ∧
      ¬ length_squared (cross_product (sub p2 p1) (sub p3 p1)) < 1/10^12 := by
  have hkeep : keep_triangle vertices a b c = true := by
    have h2 := (List.mem_filter.mp h).2
    simpa using h2
  unfold keep_triangle at hkeep
  split_ifs at hkeep with hb
  push_neg at hb
  obtain ⟨hb1, hb2, hb3, hb4, hb5, hb6⟩ := hb
  refine ⟨⟨by omega, by omega, by omega, by omega, by omega, by omega⟩, ?_⟩
  cases hga : vertices.get? a.toNat with
  | none => rw [hga] at hkeep; cases hgb : vertices.get? b.toNat <;>
      cases hgc : vertices.get? c.toNat <;> rw [hgb, hgc] at hkeep <;> simp at hkeep
  | some p1 =>
    cases hgb : vertices.get? b.toNat with
    | none => rw [hga, hgb] at hkeep; cases hgc : vertices.get? c.toNat <;>
        rw [hgc] at hkeep <;> simp at hkeep
    | some p2 =>
      cases hgc : vertices.get? c.toNat with
      | none => rw [hga, hgb, hgc] at hkeep; simp at hkeep
      | some p3 =>
        rw [hga, hgb, hgc] at hkeep
        refine ⟨p1, p2, p3, rfl, rfl, rfl, ?_⟩
        simpa using hkeep

/-- Witness for C10 amended: `triV`'s triangle `[[[0, 1, 2]]]` is retained
by the filter, so its indices and area satisfy the guarantees. -/
theorem C10_amended_witness :
    ((0 : ℤ) ≤ 0 ∧ (0 : ℤ) < ((triV.length : ℕ) : ℤ) ∧ (0 : ℤ) ≤ 1 ∧
      (1 : ℤ) < ((triV.length : ℕ) : ℤ) ∧ (0 : ℤ) ≤ 2 ∧
      (2 : ℤ) < ((triV.length : ℕ) : ℤ)) ∧
    ∃ p1 p2 p3, triV.get? (0 : ℤ).toNat = some p1 ∧
      triV.get? (1 : ℤ).toNat = some p2 ∧ triV.get? (2 : ℤ).toNat = some p3 ∧
      ¬ length_squared (cross_product (sub p2 p1) (sub p3 p1)) < 1/10^12 :=
  C10_amended triV [[[[0, 1, 2]]]] 0 1 2 (by decide)

/-! ## Signed-zero model for the two welding key schemes (C9)

`cleaner.py` keys on `"_".join(map(str, rounded_v))` while
`fix_triangles.py` keys on `tuple(rounded)`.  For floats, `str` separates
`-0.0` from `0.0` although `(-0.0,) == (0.0,)`.  A Python float is modelled
as a sign bit plus a non-negative magnitude; `str(f)` is determined by the
pair (sign, magnitude) and numeric equality by the signed value. -/

structure PyFloat where
  neg : Bool
  mag : ℚ
deriving DecidableEq

/-- The numeric value of a float. -/
def PyFloat.val (f : PyFloat) : ℚ := if f.neg then -f.mag else f.mag

/-- Python `round(f, p)`: round the value, keep the sign for results that
round to zero from a negative or negative-zero input (`round(-0.00001, 2)`
is `-0.0`). -/
def roundPy (p : ℕ) (f : PyFloat) : PyFloat :=
  let r := roundDec p f.val
  if r = 0 then
    { neg := decide (f.val < 0) || (decide (f.val = 0) && f.neg), mag := 0 }
  else { neg := decide (r < 0), mag := |r| }

abbrev PVtx := PyFloat × PyFloat × PyFloat

/-- The content of `str(round(f, p))` relevant to key identity: the sign bit
and the magnitude of the rounded float (`str` is injective on floats and
separates `-0.0` from `0.0`). -/
def strKey1 (p : ℕ) (f : PyFloat) : Bool × ℚ :=
  ((roundPy p f).neg, (roundPy p f).mag)

/-- The `cleaner.py` key of a vertex. -/
def strKey (p : ℕ) (v : PVtx) : (Bool × ℚ) × (Bool × ℚ) × (Bool × ℚ) :=
  (strKey1 p v.1, strKey1 p v.2.1, strKey1 p v.2.2)

/-- One component of the `fix_triangles.py` tuple key: tuples compare by
numeric value, so `-0.0` and `0.0` coincide. -/
def tupKey1 (p : ℕ) (f : PyFloat) : ℚ := (roundPy p f).val

/-- The `fix_triangles.py` key of a vertex. -/
def tupKey (p : ℕ) (v : PVtx) : ℚ × ℚ × ℚ :=
  (tupKey1 p v.1, tupKey1 p v.2.1, tupKey1 p v.2.2)

/-- Forgetting the sign of zero: the map from string-key components to
tuple-key components. -/
def g1 (q : Bool × ℚ) : ℚ := if q.1 then -q.2 else q.2

def g3 (t : (Bool × ℚ) × (Bool × ℚ) × (Bool × ℚ)) : ℚ × ℚ × ℚ :=
  (g1 t.1, g1 t.2.1, g1 t.2.2)

def pzero : PyFloat := ⟨false, 0⟩

def nzero : PyFloat := ⟨true, 0⟩

/-- Two vertices equal as numbers but with opposite zero signs. -/
def negZeroVs : List PVtx := [(pzero, pzero, pzero), (nzero, pzero, pzero)]

/-- C9 counterexample: on `[[0.0,0,0], [-0.0,0,0]]` the string keys
`"0.0_..."` and `"-0.0_..."` differ while the tuples compare equal, so the
two welding implementations disagree (2 kept vertices versus 1). -/
theorem C9_counterexample :
    weld (strKey 5) negZeroVs ≠ weld (tupKey 5) negZeroVs := by
  decide

/-- A rounded float never has a negative magnitude. -/
theorem roundPy_mag_nonneg (p : ℕ) (f : PyFloat) : 0 ≤ (roundPy p f).mag := by
  by_cases h : roundDec p f.val = 0
  · simp [roundPy, h]
  · simp [roundPy, h, abs_nonneg]

theorem g1_inj (a b : Bool × ℚ) (ha0 : 0 ≤ a.2) (hb0 : 0 ≤ b.2)
    (ha : ¬(a.1 = true ∧ a.2 = 0)) (hb : ¬(b.1 = true ∧ b.2 = 0))
    (h : g1 a = g1 b) : a = b := by
  obtain ⟨na, ma⟩ := a
  obtain ⟨nb, mb⟩ := b
  simp only [g1] at h
  simp only at ha0 hb0 ha hb
  cases na <;> cases nb <;> simp only [if_true, if_false, Bool.false_eq_true] at h ⊢
  · simp [h]
  · exfalso
    have hmb : mb = 0 := by linarith [h, ha0, hb0]
    exact hb ⟨rfl, hmb⟩
  · exfalso
    have hma : ma = 0 := by linarith [h, ha0, hb0]
    exact ha ⟨rfl, hma⟩
  · have : ma = mb := by linarith [h]
    simp [this]

/-- The condition under which the string key of a coordinate is faithful to
its numeric value: the rounded float is not a negative zero. -/
abbrev okRound (p : ℕ) (f : PyFloat) : Prop :=
  ¬((roundPy p f).neg = true ∧ (roundPy p f).mag = 0)

abbrev noNegZeroKeys (p : ℕ) (v : PVtx) : Prop :=
  okRound p v.1 ∧ okRound p v.2.1 ∧ okRound p v.2.2

theorem strKey_inj (p : ℕ) (v w : PVtx) (hv : noNegZeroKeys p v)
    (hw : noNegZeroKeys p w) (h : g3 (strKey p v) = g3 (strKey p w)) :
    strKey p v = strKey p w := by
  have e1 : strKey1 p v.1 = strKey1 p w.1 :=
    g1_inj _ _ (roundPy_mag_nonneg p v.1) (roundPy_mag_nonneg p w.1)
      hv.1 hw.1 (congrArg Prod.fst h)
  have e2 : strKey1 p v.2.1 = strKey1 p w.2.1 :=
    g1_inj _ _ (roundPy_mag_nonneg p v.2.1) (roundPy_mag_nonneg p w.2.1)
      hv.2.1 hw.2.1 (congrArg (fun t => t.2.1) h)
  have e3 : strKey1 p v.2.2 = strKey1 p w.2.2 :=
    g1_inj _ _ (roundPy_mag_nonneg p v.2.2) (roundPy_mag_nonneg p w.2.2)
      hv.2.2 hw.2.2 (congrArg (fun t => t.2.2) h)
  unfold strKey
  rw [e1, e2, e3]

/-- C9 amended: the two welding key schemes agree whenever no coordinate
rounds to a negative zero; on such inputs (and only up to that caveat) the
two implementations differ only in their configured precision.  With a
negative zero present they genuinely disagree (see the counterexample). -/
theorem C9_amended (p : ℕ) (vs : List PVtx)
    (h : ∀ v ∈ vs, noNegZeroKeys p v) :
    weld (strKey p) vs = weld (tupKey p) vs := by
  have hinj : ∀ a b : (Bool × ℚ) × (Bool × ℚ) × (Bool × ℚ),
      (a ∈ ([] : List (((Bool × ℚ) × (Bool × ℚ) × (Bool × ℚ)) × ℕ)).map Prod.fst ∨
        ∃ v ∈ vs, a = strKey p v) →
      (b ∈ ([] : List (((Bool × ℚ) × (Bool × ℚ) × (Bool × ℚ)) × ℕ)).map Prod.fst ∨
        ∃ v ∈ vs, b = strKey p v) →
      g3 a = g3 b → a = b := by
    intro a b ha hb hg
    rcases ha with ha | ⟨v, hv, rfl⟩
    · simp at ha
    rcases hb with hb | ⟨w, hw, rfl⟩
    · simp at hb
    exact strKey_inj p v w (h v hv) (h w hw) hg
  have hmap := weldAux_key_map (strKey p) g3 vs [] [] [] hinj
  simp only [List.map_nil] at hmap
  have hfun : tupKey p = fun v => g3 (strKey p v) := rfl
  show ((weldAux (strKey p) vs [] [] []).2.2, (weldAux (strKey p) vs [] [] []).2.1) =
    ((weldAux (tupKey p) vs [] [] []).2.2, (weldAux (tupKey p) vs [] [] []).2.1)
  rw [hfun, hmap]

/-- Witness for C9 amended: a one-vertex list without negative zeros. -/
theorem C9_amended_witness :
    weld (strKey 5) [((⟨false, 1⟩ : PyFloat), pzero, pzero)] =
      weld (tupKey 5) [((⟨false, 1⟩ : PyFloat), pzero, pzero)] :=
  C9_amended 5 [((⟨false, 1⟩ : PyFloat), pzero, pzero)] (by decide)

end Cadastre
